import Mathlib

/-!
# Verification of the stock-signal helper library (`src/tools.py`)

A shallow embedding of the repository's helper functions.  The external
web-search collaborator (`web_search.invoke(query)`) is modelled by passing
the list of returned search results as an explicit argument; everything
downstream of that call is translated directly from the Python source.

Python strings are modelled by Lean `String` (both index by Unicode code
points, so slicing like `content[:200]` matches `String.take`).  The Python
substring operator `needle in hay`, `str.lower`, `str.split(sep)` and the two
`re.findall` calls are given explicit executable models below.
-/

/-- Model of Python's `str.lower` applied to one character (ASCII range,
which covers every keyword the library searches for). -/
def pyLowerChar (c : Char) : Char := c.toLower

/-- Model of Python's `str.lower`. -/
def pyLower (s : String) : String := String.mk (s.data.map pyLowerChar)

/-- Does `hay` start with `needle` (character lists)? -/
def listStarts : List Char → List Char → Bool
  | [], _ => true
  | _ :: _, [] => false
  | a :: as, b :: bs => a == b && listStarts as bs

/-- Substring test on character lists: `needle` occurs somewhere in `hay`. -/
def listSub (needle : List Char) : List Char → Bool
  | [] => listStarts needle []
  | c :: t => listStarts needle (c :: t) || listSub needle t

/-- Model of Python's `needle in hay` substring operator. -/
def pyIn (needle hay : String) : Bool := listSub needle.data hay.data

/-- Model of Python's `text.split(sep)` for a one-character separator:
splits at every occurrence of `sep`, keeping empty segments. -/
def pySplit (sep : Char) : List Char → List (List Char)
  | [] => [[]]
  | c :: rest =>
    match pySplit sep rest with
    | [] => if c == sep then [[], []] else [[c]]
    | s :: ss => if c == sep then [] :: s :: ss else (c :: s) :: ss

/-- A search result returned by the Search Collaborator: a record with a
`title` and a `content` snippet (`src/tools.py` reads exactly these keys). -/
structure SearchResult where
  title : String
  content : String
deriving DecidableEq, Repr

/-- Whitespace characters matched by Python's regex class `\s`
(ASCII range). -/
def isPyWs (c : Char) : Bool :=
  c == ' ' || c == '\t' || c == '\n' || c == '\x0d' || c == '\x0b' || c == '\x0c'

/-- The `(?:\.\d+)?` optional-fraction step: given the leading digit run
`d1` and the remainder `r1`, extend the capture across `.digits` when
present, returning the capture so far and the rest of the input. -/
def pctNumSplit (d1 r1 : List Char) : List Char × List Char :=
  match r1 with
  | c :: r1' =>
    if c = '.' then
      if (r1'.takeWhile Char.isDigit).isEmpty then (d1, r1)
      else (d1 ++ c :: r1'.takeWhile Char.isDigit, r1'.dropWhile Char.isDigit)
    else (d1, r1)
  | [] => (d1, r1)

/-- The final `%` of the pattern: require a percent sign at the head and
emit the captured number with the remainder. -/
def pctPercentCheck (num r3 : List Char) : Option (List Char × List Char) :=
  match r3 with
  | c :: rest => if c = '%' then some (num, rest) else none
  | [] => none

/-- The `\s*%` tail of the pattern: skip whitespace, require a percent sign,
and emit the captured number with the remainder after the `%`. -/
def pctAfterNum (num r2 : List Char) : Option (List Char × List Char) :=
  pctPercentCheck num (r2.dropWhile isPyWs)

/-- One attempted match of the regex `(\d+(?:\.\d+)?)\s*%` at the start of
`cs` (the pattern used at `src/tools.py:52` and as the tail of the pattern at
`src/tools.py:117`).  Returns the captured number and the remainder after the
`%` sign on success.  Greedy matching of `\d+`, the optional fraction and
`\s*` is deterministic here because no backtracked alternative can succeed. -/
def matchPct (cs : List Char) : Option (List Char × List Char) :=
  if (cs.takeWhile Char.isDigit).isEmpty then none
  else
    let nr := pctNumSplit (cs.takeWhile Char.isDigit) (cs.dropWhile Char.isDigit)
    pctAfterNum nr.1 nr.2

/-- Left-to-right, non-overlapping scan collecting every match of
`(\d+(?:\.\d+)?)\s*%`, i.e. Python's `re.findall` on that pattern
(`src/tools.py:52`).  The fuel argument bounds the recursion; `cs.length`
always suffices because each step consumes at least one character. -/
def findallPctAux : Nat → List Char → List (List Char)
  | 0, _ => []
  | _ + 1, [] => []
  | fuel + 1, c :: rest =>
    match matchPct (c :: rest) with
    | some (num, after) => num :: findallPctAux fuel after
    | none => findallPctAux fuel rest

/-- Model of `re.findall(r"(\d+(?:\.\d+)?)\s*%", content)` from `src/tools.py:52`. -/
def findallPct (cs : List Char) : List (List Char) := findallPctAux cs.length cs

/-- One attempted match of `down\s+(\d+(?:\.\d+)?)\s*%` at the start of `cs`
(the pattern at `src/tools.py:117`): the literal `down`, at least one
whitespace character, then a percentage as in `matchPct`. -/
def matchDown (cs : List Char) : Option (List Char × List Char) :=
  if listStarts "down".data cs then
    let afterLit := cs.drop 4
    let ws := afterLit.takeWhile isPyWs
    if ws.isEmpty then none else matchPct (afterLit.dropWhile isPyWs)
  else none

/-- Model of `re.findall(r"down\s+(\d+(?:\.\d+)?)\s*%", content)` from
`src/tools.py:117`, as a fuelled left-to-right scan. -/
def findallDownAux : Nat → List Char → List (List Char)
  | 0, _ => []
  | _ + 1, [] => []
  | fuel + 1, c :: rest =>
    match matchDown (c :: rest) with
    | some (num, after) => num :: findallDownAux fuel after
    | none => findallDownAux fuel rest

/-- All captures of the `down\s+(\d+(?:\.\d+)?)\s*%` pattern in `cs`. -/
def findallDown (cs : List Char) : List (List Char) := findallDownAux cs.length cs

/-- Modelled from the spec's claim wording for comparison with `matchPct`:
a percentage match where the percent sign follows the number *immediately*
(no intervening characters, i.e. the pattern `(\d+(?:\.\d+)?)%`). -/
def specMatchPctImmediate (cs : List Char) : Option (List Char × List Char) :=
  let d1 := cs.takeWhile Char.isDigit
  let r1 := cs.dropWhile Char.isDigit
  if d1.isEmpty then none
  else
    let numRest : List Char × List Char :=
      match r1 with
      | c :: r1' =>
        if c = '.' then
          let d2 := r1'.takeWhile Char.isDigit
          if d2.isEmpty then (d1, r1) else (d1 ++ c :: d2, r1'.dropWhile Char.isDigit)
        else (d1, r1)
      | [] => (d1, r1)
    match numRest.2 with
    | c :: rest => if c = '%' then some (numRest.1, rest) else none
    | [] => none

/-- Left-to-right, non-overlapping scan for the spec's immediate-percent
pattern (compare `findallPctAux`). -/
def specFindallImmediateAux : Nat → List Char → List (List Char)
  | 0, _ => []
  | _ + 1, [] => []
  | fuel + 1, c :: rest =>
    match specMatchPctImmediate (c :: rest) with
    | some (num, after) => num :: specFindallImmediateAux fuel after
    | none => specFindallImmediateAux fuel rest

/-- All captures of the spec's immediate-percent pattern in `cs`. -/
def specFindallImmediate (cs : List Char) : List (List Char) :=
  specFindallImmediateAux cs.length cs

/-- The keyword test `any(word in content.lower() for word in keywords)`
from `src/tools.py:19`. -/
def contentMatches (keywords : List String) (content : String) : Bool :=
  keywords.any fun word => pyIn word (pyLower content)

/-- The formatted entry `f"• {title}: {content[:200]}..."` built at
`src/tools.py:20`. -/
def signalEntry (r : SearchResult) : String :=
  "• " ++ r.title ++ ": " ++ r.content.take 200 ++ "..."

/-- The accumulator loop of `search_and_extract_signals`
(`src/tools.py:16-20`), written as a fold over the search results. -/
def signalsOf (keywords : List String) (results : List SearchResult) : List String :=
  results.foldl
    (fun acc r => if contentMatches keywords r.content then acc ++ [signalEntry r] else acc)
    []

/-- Embedding of `search_and_extract_signals(stock_symbol, query, keywords, prefix,
default_msg)` from `src/tools.py:10-25`, with the collaborator's results for
`query` passed explicitly.  At most the first 2 signals are joined. -/
def search_and_extract_signals (stock_symbol : String) (_query : String)
    (keywords : List String) (pfx : String) (default_msg : String)
    (results : List SearchResult) : String :=
  let signals := signalsOf keywords results
  if signals.isEmpty then
    pfx ++ " " ++ stock_symbol ++ ": " ++ default_msg
  else
    pfx ++ " for " ++ stock_symbol ++ ":\n" ++ String.intercalate "\n" (signals.take 2)

/-- Embedding of `find_positive_news` from `src/tools.py:33-39`. -/
def find_positive_news (stock_symbol : String) (results : List SearchResult) : String :=
  search_and_extract_signals stock_symbol
    (stock_symbol ++ " stock positive news earnings growth revenue profit upgrade")
    ["profit", "growth", "upgrade", "beat", "strong", "positive", "bullish"]
    "🐂 POSITIVE SIGNALS"
    "Limited positive news found, but that could mean it\x27s undervalued!"
    results

/-- Embedding of `find_negative_news` from `src/tools.py:74-90`. -/
def find_negative_news (stock_symbol : String) (results : List SearchResult) : String :=
  search_and_extract_signals stock_symbol
    (stock_symbol ++ " stock negative news risks decline losses downgrade warning")
    ["loss", "decline", "risk", "warning", "downgrade", "weak", "negative", "bearish", "concern"]
    "🐻 WARNING SIGNALS"
    "No major red flags found, but market volatility always poses risks!"
    results

/-- The positive growth terms scanned for at `src/tools.py:57-60`. -/
def growthTerms : List String := ["increase", "growth", "up", "higher", "rose", "gained"]

/-- The per-result body of the `calculate_growth_potential` loop
(`src/tools.py:48-61`): percentage captures (capped at 3 per result, each
formatted `f"{p}%"`), then a trend marker when a growth term occurs. -/
def growthStep (acc : List String) (r : SearchResult) : List String :=
  let content := pyLower r.content
  let percentages := findallPct content.data
  let acc1 :=
    if percentages.isEmpty then acc
    else acc ++ (percentages.take 3).map (fun p => String.mk p ++ "%")
  if growthTerms.any (fun t => pyIn t content) then acc1 ++ ["Positive trend detected"]
  else acc1

/-- The `growth_indicators` accumulator of `calculate_growth_potential`. -/
def growthIndicators (results : List SearchResult) : List String :=
  results.foldl growthStep []

/-- Embedding of `calculate_growth_potential` from `src/tools.py:42-66`, with the search
results passed explicitly.  At most 3 indicators are joined. -/
def calculate_growth_potential (stock_symbol : String)
    (results : List SearchResult) : String :=
  let indicators := growthIndicators results
  if indicators.isEmpty then
    "📈 " ++ stock_symbol ++ ": Growth data limited, but could indicate overlooked opportunity!"
  else
    "📈 GROWTH POTENTIAL for " ++ stock_symbol ++ ": " ++
      String.intercalate ", " (indicators.take 3)

/-- The risk terms scanned for at `src/tools.py:103-113`. -/
def riskTerms : List String := ["risk", "volatile", "uncertain", "concern", "debt", "competition"]

/-- The per-result body of the `assess_market_risks` loop
(`src/tools.py:99-119`): a risk marker when a risk term occurs, then the
`down N%` captures (capped at 2 per result, formatted `f"Down {p}%"`). -/
def riskStep (acc : List String) (r : SearchResult) : List String :=
  let content := pyLower r.content
  let acc1 :=
    if riskTerms.any (fun t => pyIn t content) then acc ++ ["Market risk identified"]
    else acc
  let negative_changes := findallDown content.data
  if negative_changes.isEmpty then acc1
  else acc1 ++ (negative_changes.take 2).map (fun p => "Down " ++ String.mk p ++ "%")

/-- The `risk_factors` accumulator of `assess_market_risks`. -/
def riskFactors (results : List SearchResult) : List String :=
  results.foldl riskStep []

/-- Embedding of `assess_market_risks` from `src/tools.py:93-124`, with the search results
passed explicitly.  At most 3 risk factors are joined. -/
def assess_market_risks (stock_symbol : String) (results : List SearchResult) : String :=
  let risk_factors := riskFactors results
  if risk_factors.isEmpty then
    "⚠️ " ++ stock_symbol ++ ": Risk factors unclear - proceed with extreme caution!"
  else
    "⚠️ RISK ASSESSMENT for " ++ stock_symbol ++ ": " ++
      String.intercalate ", " (risk_factors.take 3)

/-- The sentiment keywords at `src/tools.py:135`. -/
def sentimentKeywords : List String := ["price", "trading", "market", "analyst"]

/-- The formatted entry `f"• {title}: {content[:150]}..."` built at
`src/tools.py:145` (note the 150-character truncation). -/
def sentimentEntry (r : SearchResult) : String :=
  "• " ++ r.title ++ ": " ++ r.content.take 150 ++ "..."

/-- The `sentiment_data` accumulator of `get_current_market_sentiment`
(`src/tools.py:140-145`): the keyword test runs over `(title + content)`
lower-cased. -/
def sentimentData (results : List SearchResult) : List String :=
  results.foldl
    (fun acc r =>
      if sentimentKeywords.any (fun w => pyIn w (pyLower (r.title ++ r.content))) then
        acc ++ [sentimentEntry r]
      else acc)
    []

/-- Embedding of `get_current_market_sentiment` from `src/tools.py:132-150`, with the
search results passed explicitly. -/
def get_current_market_sentiment (stock_symbol : String)
    (results : List SearchResult) : String :=
  let sentiment_data := sentimentData results
  if sentiment_data.isEmpty then
    "📊 CURRENT MARKET DATA " ++ stock_symbol ++ ": Market data limited - need more information for decision"
  else
    "📊 CURRENT MARKET DATA for " ++ stock_symbol ++ ":\n" ++
      String.intercalate "\n" (sentiment_data.take 2)

/-- The inner helper `count_points` of `make_investment_decision`
(`src/tools.py:156-157`): `len(points.split("•")) if "•" in points else 1`. -/
def count_points (points : String) : Nat :=
  if pyIn "•" points then (pySplit '•' points.data).length else 1

/-- The inner helper `check_signals` of `make_investment_decision`
(`src/tools.py:159-160`): `any(word in text.lower() for word in keywords)`. -/
def check_signals (text : String) (keywords : List String) : Bool :=
  keywords.any fun word => pyIn word (pyLower text)

/-- The bull keywords at `src/tools.py:168`. -/
def bullKeywords : List String := ["growth", "profit", "upgrade", "strong"]

/-- The bear keywords at `src/tools.py:171`. -/
def bearKeywords : List String := ["risk", "decline", "warning", "concern"]

/-- The decision logic at `src/tools.py:174-183`: recommendation and
confidence chosen by the first matching branch. -/
def decision_core (bull_points bear_points : String) : String × String :=
  let bull_score := count_points bull_points
  let bear_score := count_points bear_points
  if bull_score > bear_score && check_signals bull_points bullKeywords then
    ("BUY", "High")
  else if bear_score > bull_score && check_signals bear_points bearKeywords then
    ("SELL/AVOID", "High")
  else
    ("HOLD/RESEARCH MORE", "Medium")

/-- The final report f-string at `src/tools.py:185-191`. -/
def decisionReport (stock_symbol recommendation confidence : String)
    (bull_score bear_score : Nat) : String :=
  "🎯 FINAL DECISION for " ++ stock_symbol ++ ": " ++ recommendation ++ "\n" ++
    "Confidence Level: " ++ confidence ++ "\n" ++
    "Bull Arguments: " ++ toString bull_score ++ " points\n" ++
    "Bear Arguments: " ++ toString bear_score ++ " points\n" ++
    "Recommendation: Based on current analysis, " ++ pyLower recommendation ++ " position"

/-- Embedding of `make_investment_decision` from `src/tools.py:153-191`. -/
def make_investment_decision (stock_symbol bull_points bear_points : String) : String :=
  let scores := decision_core bull_points bear_points
  decisionReport stock_symbol scores.1 scores.2
    (count_points bull_points) (count_points bear_points)

/-! ## Helper lemmas -/

/-- A fold that conditionally appends one formatted entry per element is a
`filter`-then-`map`. -/
theorem foldl_append_filter {α β : Type} (p : α → Bool) (g : α → β) (l : List α) :
    ∀ acc : List β,
      l.foldl (fun a x => if p x then a ++ [g x] else a) acc = acc ++ (l.filter p).map g := by
  induction l with
  | nil => intro acc; simp
  | cons x t ih =>
    intro acc
    by_cases h : p x <;> simp [h, ih]

/-- The `signals` accumulator is the matching results, formatted in order. -/
theorem signalsOf_eq (keywords : List String) (results : List SearchResult) :
    signalsOf keywords results =
      ((results.filter fun r => contentMatches keywords r.content).map signalEntry) := by
  simpa [signalsOf] using foldl_append_filter (fun r => contentMatches keywords r.content)
    signalEntry results []

/-- The `sentiment_data` accumulator is the matching results, formatted in
order (keyword test over title + content). -/
theorem sentimentData_eq (results : List SearchResult) :
    sentimentData results =
      ((results.filter fun r =>
          sentimentKeywords.any fun w => pyIn w (pyLower (r.title ++ r.content))).map
        sentimentEntry) := by
  simpa [sentimentData] using foldl_append_filter
    (fun r => sentimentKeywords.any fun w => pyIn w (pyLower (r.title ++ r.content)))
    sentimentEntry results []

/-- Splitting on a separator yields one more segment than the separator's
occurrence count. -/
theorem pySplit_length (sep : Char) (l : List Char) :
    (pySplit sep l).length = l.count sep + 1 := by
  induction l with
  | nil => simp [pySplit]
  | cons c t ih =>
    unfold pySplit
    cases h : pySplit sep t with
    | nil => rw [h] at ih; simp at ih
    | cons s ss =>
      rw [h] at ih
      by_cases hc : c == sep
      · have : c = sep := by simpa using hc
        simp only [hc, if_pos rfl, this, List.count_cons]
        simp at ih ⊢
        omega
      · have : ¬ c = sep := by simpa using hc
        simp only [hc, List.count_cons]
        simp [this] at ih ⊢
        omega

/-- Single-character substring search is character membership. -/
theorem listSub_singleton (c : Char) (hay : List Char) :
    listSub [c] hay = true ↔ c ∈ hay := by
  induction hay with
  | nil => simp [listSub, listStarts]
  | cons x t ih =>
    simp [listSub, listStarts, ih, Bool.or_eq_true, Bool.and_eq_true]

/-! ## Claim theorems -/

/-- C2: for every string `text`, `count_points` returns 1 when `text` does
not contain the bullet character, and otherwise returns the number of
segments produced by splitting on the bullet — which is the occurrence count
of the bullet plus one, so empty leading/trailing segments are included. -/
theorem count_points_split (text : String) :
    count_points text =
      (if pyIn "•" text then (pySplit '•' text.data).length else 1) ∧
    (pySplit '•' text.data).length = text.data.count '•' + 1 :=
  ⟨rfl, pySplit_length '•' text.data⟩

/-- C6: on an empty result sequence no error is possible and
`search_and_extract_signals` returns the default-message format with the
symbol embedded. -/
theorem search_extract_empty_results (sym query : String) (kw : List String)
    (pfx msg : String) :
    search_and_extract_signals sym query kw pfx msg [] =
      pfx ++ " " ++ sym ++ ": " ++ msg := rfl

/-- C7: with empty bull and bear texts both scores are 1, no keyword check
matches, and for every symbol the (deterministic) result is the
HOLD/RESEARCH MORE report with Medium confidence. -/
theorem decision_empty_inputs (sym : String) :
    make_investment_decision sym "" "" =
      decisionReport sym "HOLD/RESEARCH MORE" "Medium" 1 1 ∧
    count_points "" = 1 ∧
    check_signals "" bullKeywords = false ∧
    check_signals "" bearKeywords = false := by
  refine ⟨?_, by decide, by decide, by decide⟩
  have h : decision_core "" "" = ("HOLD/RESEARCH MORE", "Medium") := by decide
  have hc : count_points "" = 1 := by decide
  simp [make_investment_decision, h, hc]

set_option maxRecDepth 100000 in
/-- C8: the end-to-end ACME scenario — one search result titled
"ACME beats estimates" with strong-profit-growth content makes
`find_positive_news "ACME"` return a string starting with the expected
positive-signals report. -/
theorem find_positive_news_acme :
    listStarts
      ("🐂 POSITIVE SIGNALS for ACME:\n• ACME beats estimates: ACME reported strong profit growth this quarter...").data
      (find_positive_news "ACME"
        [⟨"ACME beats estimates",
          "ACME reported strong profit growth this quarter..."⟩]).data = true := by
  decide

/-- C9: `count_points` is always at least 1, at least 2 on any text
containing a bullet, and any bulleted text strictly outscores any
bullet-free text. -/
theorem count_points_bounds :
    (∀ t : String, 1 ≤ count_points t) ∧
    (∀ t : String, pyIn "•" t = true → 2 ≤ count_points t) ∧
    (∀ a b : String, pyIn "•" a = true → pyIn "•" b = false →
      count_points b < count_points a) := by
  have h2 : ∀ t : String, pyIn "•" t = true → 2 ≤ count_points t := by
    intro t ht
    have hm : '•' ∈ t.data := by
      have hd : "•".data = ['•'] := rfl
      have := (listSub_singleton '•' t.data).mp (by simpa [pyIn, hd] using ht)
      exact this
    have hpos : 0 < t.data.count '•' := List.count_pos_iff.mpr hm
    simp only [count_points, ht, if_true, pySplit_length]
    omega
  have h1 : ∀ t : String, 1 ≤ count_points t := by
    intro t
    by_cases ht : pyIn "•" t
    · exact le_trans (by omega) (h2 t ht)
    · simp [count_points, ht]
  refine ⟨h1, h2, ?_⟩
  intro a b ha hb
  have : count_points b = 1 := by simp [count_points, hb]
  have := h2 a ha
  omega

/-- Concrete instantiation of `count_points_bounds` discharging its
hypotheses: "• a" contains a bullet, "plain" does not. -/
theorem count_points_bounds_witness :
    2 ≤ count_points "• a" ∧ count_points "plain" < count_points "• a" :=
  ⟨count_points_bounds.2.1 "• a" (by decide),
   count_points_bounds.2.2 "• a" "plain" (by decide) (by decide)⟩

/-- A prefix test survives extending the haystack on the right. -/
theorem listStarts_append (n l l2 : List Char) (h : listStarts n l = true) :
    listStarts n (l ++ l2) = true := by
  induction n generalizing l with
  | nil => simp [listStarts]
  | cons a as ih =>
    cases l with
    | nil => simp [listStarts] at h
    | cons b bs =>
      simp only [listStarts, Bool.and_eq_true] at h
      simp only [List.cons_append, listStarts, Bool.and_eq_true]
      exact ⟨h.1, ih bs h.2⟩

/-- The empty needle occurs in every haystack. -/
theorem listSub_nil_needle (l : List Char) : listSub [] l = true := by
  cases l <;> simp [listSub, listStarts]

/-- A substring occurrence survives extending the haystack on the right. -/
theorem listSub_append_left (n l l2 : List Char) (h : listSub n l = true) :
    listSub n (l ++ l2) = true := by
  induction l with
  | nil =>
    cases n with
    | nil => simpa using listSub_nil_needle l2
    | cons a as => simp [listSub, listStarts] at h
  | cons c t ih =>
    simp only [listSub, Bool.or_eq_true] at h
    simp only [List.cons_append, listSub, Bool.or_eq_true]
    rcases h with h | h
    · exact Or.inl (listStarts_append _ _ _ h)
    · exact Or.inr (ih h)

/-- Python's `lower` distributes over concatenation. -/
theorem pyLower_append (s t : String) :
    pyLower (s ++ t) = pyLower s ++ pyLower t := by
  unfold pyLower
  rw [String.data_append, List.map_append]
  rfl

/-- C1: `make_investment_decision` follows the first-match decision policy:
BUY/High when the bull score wins and a strong bull keyword occurs
(case-insensitively) in the bull text; otherwise SELL-AVOID/High when the
bear score wins and a strong bear keyword occurs in the bear text; otherwise
HOLD-RESEARCH-MORE/Medium. -/
theorem make_investment_decision_policy (sym bull bear : String) :
    make_investment_decision sym bull bear =
      if count_points bull > count_points bear ∧
          ∃ w ∈ bullKeywords, pyIn w (pyLower bull) = true then
        decisionReport sym "BUY" "High" (count_points bull) (count_points bear)
      else if count_points bear > count_points bull ∧
          ∃ w ∈ bearKeywords, pyIn w (pyLower bear) = true then
        decisionReport sym "SELL/AVOID" "High" (count_points bull) (count_points bear)
      else
        decisionReport sym "HOLD/RESEARCH MORE" "Medium"
          (count_points bull) (count_points bear) := by
  have cb : (∃ w ∈ bullKeywords, pyIn w (pyLower bull) = true) ↔
      check_signals bull bullKeywords = true := by
    simp [check_signals, List.any_eq_true]
  have cr : (∃ w ∈ bearKeywords, pyIn w (pyLower bear) = true) ↔
      check_signals bear bearKeywords = true := by
    simp [check_signals, List.any_eq_true]
  by_cases hb : count_points bear < count_points bull <;>
    by_cases hsb : check_signals bull bullKeywords <;>
      by_cases hr : count_points bull < count_points bear <;>
        by_cases hsr : check_signals bear bearKeywords <;>
          simp [make_investment_decision, decision_core, gt_iff_lt,
            hb, hsb, hr, hsr, cb, cr]

/-- C4: `search_and_extract_signals` returns the prefixed report followed by
the first 2 formatted entries (each `"• <title>: <first 200 chars>..."`)
joined by a newline exactly when some result's lower-cased content contains
a keyword, and the default-message format otherwise. -/
theorem search_extract_characterization (sym query : String) (kw : List String)
    (pfx msg : String) (results : List SearchResult) :
    search_and_extract_signals sym query kw pfx msg results =
      if ∃ r ∈ results, ∃ w ∈ kw, pyIn w (pyLower r.content) = true then
        pfx ++ " for " ++ sym ++ ":\n" ++
          String.intercalate "\n"
            (((results.filter fun r => contentMatches kw r.content).map
                signalEntry).take 2)
      else pfx ++ " " ++ sym ++ ": " ++ msg := by
  unfold search_and_extract_signals
  rw [signalsOf_eq]
  by_cases h : ∃ r ∈ results, ∃ w ∈ kw, pyIn w (pyLower r.content) = true
  · rw [if_pos h]
    have hne : ((results.filter fun r => contentMatches kw r.content).map
        signalEntry).isEmpty = false := by
      rcases h with ⟨r, hr, w, hw, hpy⟩
      have hc : contentMatches kw r.content = true := by
        simp only [contentMatches, List.any_eq_true]
        exact ⟨w, hw, hpy⟩
      have hmem : r ∈ results.filter fun r => contentMatches kw r.content :=
        List.mem_filter.mpr ⟨hr, hc⟩
      cases hfe : results.filter fun r => contentMatches kw r.content with
      | nil => rw [hfe] at hmem; simp at hmem
      | cons x xs => simp [hfe]
    simp [hne]
  · rw [if_neg h]
    have hfil : (results.filter fun r => contentMatches kw r.content) = [] := by
      rw [List.filter_eq_nil_iff]
      intro r hr hc
      apply h
      have hx : ∃ w ∈ kw, pyIn w (pyLower r.content) = true := by
        simpa [contentMatches, List.any_eq_true] using hc
      rcases hx with ⟨w, hw, hpy⟩
      exact ⟨r, hr, w, hw, hpy⟩
    simp [hfil]

/-- C10: `get_current_market_sentiment` tests keywords against the
lower-cased concatenation of title and content (so a keyword only in the
title still selects the result), truncates each entry's content to 150
characters via `sentimentEntry`, and joins at most the first 2 entries. -/
theorem sentiment_characterization (sym : String) (results : List SearchResult) :
    (get_current_market_sentiment sym results =
      if ∃ r ∈ results, ∃ w ∈ sentimentKeywords,
          pyIn w (pyLower (r.title ++ r.content)) = true then
        "📊 CURRENT MARKET DATA for " ++ sym ++ ":\n" ++
          String.intercalate "\n"
            (((results.filter fun r =>
                sentimentKeywords.any fun w =>
                  pyIn w (pyLower (r.title ++ r.content))).map
              sentimentEntry).take 2)
      else
        "📊 CURRENT MARKET DATA " ++ sym ++
          ": Market data limited - need more information for decision") ∧
    ∀ r : SearchResult,
      (∃ w ∈ sentimentKeywords, pyIn w (pyLower r.title) = true) →
        (sentimentKeywords.any fun w =>
          pyIn w (pyLower (r.title ++ r.content))) = true := by
  constructor
  · unfold get_current_market_sentiment
    rw [sentimentData_eq]
    by_cases h : ∃ r ∈ results, ∃ w ∈ sentimentKeywords,
        pyIn w (pyLower (r.title ++ r.content)) = true
    · rw [if_pos h]
      have hne : ((results.filter fun r =>
          sentimentKeywords.any fun w =>
            pyIn w (pyLower (r.title ++ r.content))).map
          sentimentEntry).isEmpty = false := by
        rcases h with ⟨r, hr, w, hw, hpy⟩
        have hc : (sentimentKeywords.any fun w =>
            pyIn w (pyLower (r.title ++ r.content))) = true := by
          simp only [List.any_eq_true]
          exact ⟨w, hw, hpy⟩
        have hmem : r ∈ results.filter fun r =>
            sentimentKeywords.any fun w =>
              pyIn w (pyLower (r.title ++ r.content)) :=
          List.mem_filter.mpr ⟨hr, hc⟩
        cases hfe : results.filter fun r =>
            sentimentKeywords.any fun w =>
              pyIn w (pyLower (r.title ++ r.content)) with
        | nil => rw [hfe] at hmem; simp at hmem
        | cons x xs => simp [hfe]
      simp [hne]
    · rw [if_neg h]
      have hfil : (results.filter fun r =>
          sentimentKeywords.any fun w =>
            pyIn w (pyLower (r.title ++ r.content))) = [] := by
        rw [List.filter_eq_nil_iff]
        intro r hr hc
        apply h
        have hx : ∃ w ∈ sentimentKeywords,
            pyIn w (pyLower (r.title ++ r.content)) = true := by
          simpa [List.any_eq_true] using hc
        rcases hx with ⟨w, hw, hpy⟩
        exact ⟨r, hr, w, hw, hpy⟩
      simp [hfil]
  · intro r hx
    rcases hx with ⟨w, hw, hpy⟩
    simp only [List.any_eq_true]
    refine ⟨w, hw, ?_⟩
    rw [pyLower_append]
    unfold pyIn at hpy ⊢
    rw [String.data_append]
    exact listSub_append_left _ _ _ hpy

/-- Concrete instantiation of `sentiment_characterization`: a result whose
title alone contains the keyword "price" is selected even though its content
contains no keyword. -/
theorem sentiment_characterization_witness :
    (sentimentKeywords.any fun w =>
      pyIn w (pyLower ((SearchResult.mk "price update" "nothing here").title ++
        (SearchResult.mk "price update" "nothing here").content))) = true :=
  (sentiment_characterization "X" []).2 ⟨"price update", "nothing here"⟩
    ⟨"price", by decide, by decide⟩

/-- C5: each report joins exactly the capped prefix of its accumulator —
`(signalsOf …).take 2` for `search_and_extract_signals`,
`(growthIndicators …).take 3` for `calculate_growth_potential`,
`(riskFactors …).take 3` for `assess_market_risks` (else the default
message) — and those joined lists never exceed the caps 2, 3, 3. -/
theorem signal_list_caps :
    (∀ (sym query : String) (kw : List String) (pfx msg : String)
        (results : List SearchResult),
      ((signalsOf kw results).take 2).length ≤ 2 ∧
      search_and_extract_signals sym query kw pfx msg results =
        (if (signalsOf kw results).isEmpty then pfx ++ " " ++ sym ++ ": " ++ msg
         else pfx ++ " for " ++ sym ++ ":\n" ++
           String.intercalate "\n" ((signalsOf kw results).take 2))) ∧
    (∀ (sym : String) (results : List SearchResult),
      ((growthIndicators results).take 3).length ≤ 3 ∧
      calculate_growth_potential sym results =
        (if (growthIndicators results).isEmpty then
          "📈 " ++ sym ++
            ": Growth data limited, but could indicate overlooked opportunity!"
         else "📈 GROWTH POTENTIAL for " ++ sym ++ ": " ++
           String.intercalate ", " ((growthIndicators results).take 3))) ∧
    (∀ (sym : String) (results : List SearchResult),
      ((riskFactors results).take 3).length ≤ 3 ∧
      assess_market_risks sym results =
        (if (riskFactors results).isEmpty then
          "⚠️ " ++ sym ++ ": Risk factors unclear - proceed with extreme caution!"
         else "⚠️ RISK ASSESSMENT for " ++ sym ++ ": " ++
           String.intercalate ", " ((riskFactors results).take 3))) := by
  refine ⟨?_, ?_, ?_⟩ <;> intros <;> exact ⟨List.length_take_le _ _, rfl⟩

/-- C3 counterexample: on content `"5 %"` (whitespace between the number and
the percent sign) the code's pattern `(\d+(?:\.\d+)?)\s*%` extracts the token
`5` — and `calculate_growth_potential` reports `5%` — while the claim's
immediate-percent pattern matches nothing, so the two extraction sets
differ. -/
theorem growth_pct_immediate_cex :
    findallPct (pyLower "5 %").data ≠ specFindallImmediate (pyLower "5 %").data ∧
    findallPct (pyLower "5 %").data = [['5']] ∧
    specFindallImmediate (pyLower "5 %").data = [] ∧
    calculate_growth_potential "ACME" [⟨"t", "5 %"⟩] =
      "📈 GROWTH POTENTIAL for ACME: 5%" :=
  ⟨by decide, by decide, by decide, by decide⟩

/-- Splitting a list at an all-true prefix followed by a failing head:
`takeWhile` returns exactly the prefix and `dropWhile` the remainder. -/
theorem takeWhile_all_append (p : Char → Bool) (a b : List Char)
    (ha : ∀ c ∈ a, p c = true) (hb : ∀ x, b.head? = some x → p x = false) :
    (a ++ b).takeWhile p = a ∧ (a ++ b).dropWhile p = b := by
  induction a with
  | nil =>
    simp only [List.nil_append]
    cases b with
    | nil => simp
    | cons x t =>
      have hx := hb x rfl
      simp [List.takeWhile_cons, List.dropWhile_cons, hx]
  | cons c a ih =>
    have hc : p c = true := ha c (by simp)
    have hrest := ih (fun d hd => ha d (by simp [hd]))
    simp [List.takeWhile_cons, List.dropWhile_cons, hc, hrest.1, hrest.2]

/-- A regex-whitespace character is not a digit. -/
theorem isPyWs_not_digit (c : Char) (h : isPyWs c = true) : c.isDigit = false := by
  simp only [isPyWs, Bool.or_eq_true, beq_iff_eq] at h
  rcases h with ((((h | h) | h) | h) | h) | h <;> subst h <;> decide

/-- A regex-whitespace character is not the dot. -/
theorem isPyWs_ne_dot (c : Char) (h : isPyWs c = true) : c ≠ '.' := by
  simp only [isPyWs, Bool.or_eq_true, beq_iff_eq] at h
  rcases h with ((((h | h) | h) | h) | h) | h <;> subst h <;> decide

/-- The head of `ws ++ '%' :: rest` is never a digit when `ws` is all
whitespace. -/
theorem head_not_digit_ws (ws rest : List Char) (hws : ∀ c ∈ ws, isPyWs c = true) :
    ∀ x, (ws ++ '%' :: rest).head? = some x → x.isDigit = false := by
  intro x hx
  cases ws with
  | nil =>
    simp only [List.nil_append, List.head?_cons, Option.some.injEq] at hx
    subst hx; decide
  | cons w t =>
    simp only [List.cons_append, List.head?_cons, Option.some.injEq] at hx
    rcases hx with rfl
    exact isPyWs_not_digit w (hws w (by simp))

/-- When the input's head is not a dot, the fraction step captures nothing. -/
theorem pctNumSplit_no_dot (d1 r1 : List Char)
    (h : ∀ x, r1.head? = some x → x ≠ '.') :
    pctNumSplit d1 r1 = (d1, r1) := by
  cases r1 with
  | nil => rfl
  | cons c0 t =>
    have hc := h c0 rfl
    simp [pctNumSplit, hc]

/-- Lemma: `pctAfterNum` succeeds on an all-whitespace run followed by `%`. -/
theorem pctAfterNum_ws (num ws rest : List Char)
    (hws : ∀ c ∈ ws, isPyWs c = true) :
    pctAfterNum num (ws ++ '%' :: rest) = some (num, rest) := by
  have hsplit := takeWhile_all_append isPyWs ws ('%' :: rest) hws
    (by intro x hx; simp only [List.head?_cons, Option.some.injEq] at hx
        rcases hx with rfl; decide)
  unfold pctAfterNum
  rw [hsplit.2]
  simp [pctPercentCheck]

/-- Success of the `\s*%` tail characterized: the input decomposes into a
whitespace run, the percent sign, and the returned remainder. -/
theorem pctAfterNum_eq_some (num r2 num' rest : List Char) :
    pctAfterNum num r2 = some (num', rest) ↔
      num' = num ∧ ∃ ws, (∀ c ∈ ws, isPyWs c = true) ∧ r2 = ws ++ '%' :: rest := by
  constructor
  · intro h
    unfold pctAfterNum at h
    cases hdw : r2.dropWhile isPyWs with
    | nil => rw [hdw] at h; simp [pctPercentCheck] at h
    | cons c rest' =>
      rw [hdw] at h
      by_cases hc : c = '%'
      · subst hc
        simp only [pctPercentCheck] at h
        rw [if_pos trivial] at h
        rw [Option.some.injEq, Prod.mk.injEq] at h
        rcases h with ⟨rfl, rfl⟩
        refine ⟨rfl, r2.takeWhile isPyWs, fun c hc => List.mem_takeWhile_imp hc, ?_⟩
        conv_lhs => rw [← List.takeWhile_append_dropWhile (p := isPyWs) (l := r2)]
        rw [hdw]
      · simp [pctPercentCheck, hc] at h
  · rintro ⟨rfl, ws, hws, rfl⟩
    exact pctAfterNum_ws _ ws rest hws

/-- C3 (amended): the code's percentage matcher succeeds exactly when the
input starts with one or more digits, optionally followed by a decimal
fraction, then *optional whitespace*, immediately followed by a percent
sign; the captured token is the number without the whitespace or the `%`. -/
theorem matchPct_characterization (cs num rest : List Char) :
    matchPct cs = some (num, rest) ↔
      ∃ d1 fr ws : List Char,
        d1 ≠ [] ∧ (∀ c ∈ d1, c.isDigit = true) ∧
        (fr = [] ∨ ∃ d2 : List Char, d2 ≠ [] ∧ (∀ c ∈ d2, c.isDigit = true) ∧
          fr = '.' :: d2) ∧
        (∀ c ∈ ws, isPyWs c = true) ∧
        num = d1 ++ fr ∧
        cs = d1 ++ (fr ++ (ws ++ '%' :: rest)) := by
  constructor
  · intro h
    simp only [matchPct] at h
    by_cases he : (cs.takeWhile Char.isDigit).isEmpty
    · rw [if_pos he] at h; exact absurd h (by simp)
    · rw [if_neg he] at h
      rw [pctAfterNum_eq_some] at h
      obtain ⟨hnum, ws, hws, hr2⟩ := h
      have hcs : cs = cs.takeWhile Char.isDigit ++ cs.dropWhile Char.isDigit :=
        (List.takeWhile_append_dropWhile Char.isDigit cs).symm
      set A := cs.takeWhile Char.isDigit with hAdef
      set B := cs.dropWhile Char.isDigit with hBdef
      have hAne : A ≠ [] := fun hnil => he (by simp [hnil])
      have hAdig : ∀ c ∈ A, c.isDigit = true :=
        fun c hc => List.mem_takeWhile_imp (hAdef ▸ hc)
      cases hBc : B with
      | nil =>
        rw [hBc] at hr2
        simp [pctNumSplit] at hr2
      | cons c0 r1' =>
        rw [hBc] at hnum hr2 hcs
        by_cases hdot : c0 = '.'
        · subst hdot
          by_cases hd2e : (r1'.takeWhile Char.isDigit).isEmpty
          · simp [pctNumSplit, hd2e] at hnum hr2
            refine ⟨A, [], ws, hAne, hAdig, Or.inl rfl, hws, by simp [hnum], ?_⟩
            rw [hcs, hr2]
            simp
          · simp [pctNumSplit, hd2e] at hnum hr2
            have hr1' : r1' = r1'.takeWhile Char.isDigit ++ (ws ++ '%' :: rest) := by
              conv_lhs =>
                rw [← List.takeWhile_append_dropWhile (p := Char.isDigit) (l := r1')]
              rw [hr2]
            refine ⟨A, '.' :: r1'.takeWhile Char.isDigit, ws, hAne, hAdig,
              Or.inr ⟨r1'.takeWhile Char.isDigit,
                fun hnil => hd2e (by simp [hnil]),
                fun c hc => List.mem_takeWhile_imp hc, rfl⟩,
              hws, by simp [hnum], ?_⟩
            rw [hcs]
            conv_lhs => rw [hr1']
            simp
        · simp [pctNumSplit, hdot] at hnum hr2
          refine ⟨A, [], ws, hAne, hAdig, Or.inl rfl, hws, by simp [hnum], ?_⟩
          rw [hcs, hr2]
          simp
  · rintro ⟨d1, fr, ws, hd1ne, hd1dig, hfr, hws, rfl, rfl⟩
    rcases hfr with rfl | ⟨d2, hd2ne, hd2dig, rfl⟩
    · have hsplit := takeWhile_all_append Char.isDigit d1 (ws ++ '%' :: rest) hd1dig
        (head_not_digit_ws ws rest hws)
      simp only [matchPct, List.nil_append, List.append_nil]
      rw [hsplit.1, hsplit.2]
      rw [if_neg (fun hh => hd1ne (List.isEmpty_iff.mp hh))]
      rw [pctNumSplit_no_dot d1 (ws ++ '%' :: rest) ?hx]
      · exact pctAfterNum_ws d1 ws rest hws
      case hx =>
        intro x hx
        cases ws with
        | nil =>
          simp only [List.nil_append, List.head?_cons, Option.some.injEq] at hx
          rcases hx with rfl; decide
        | cons w t =>
          simp only [List.cons_append, List.head?_cons, Option.some.injEq] at hx
          rcases hx with rfl
          exact isPyWs_ne_dot w (hws w (by simp))
    · have hsplit1 := takeWhile_all_append Char.isDigit d1
        (('.' :: d2) ++ (ws ++ '%' :: rest)) hd1dig
        (by intro x hx
            simp only [List.cons_append, List.head?_cons, Option.some.injEq] at hx
            rcases hx with rfl; decide)
      have hsplit2 := takeWhile_all_append Char.isDigit d2 (ws ++ '%' :: rest) hd2dig
        (head_not_digit_ws ws rest hws)
      simp only [matchPct]
      rw [hsplit1.1, hsplit1.2]
      rw [if_neg (fun hh => hd1ne (List.isEmpty_iff.mp hh))]
      rw [List.cons_append]
      have hstep : pctNumSplit d1 ('.' :: (d2 ++ (ws ++ '%' :: rest))) =
          (d1 ++ '.' :: d2, ws ++ '%' :: rest) := by
        simp only [pctNumSplit]
        rw [if_pos trivial, hsplit2.1, hsplit2.2,
          if_neg (fun hh => hd2ne (List.isEmpty_iff.mp hh))]
      rw [hstep]
      exact pctAfterNum_ws (d1 ++ '.' :: d2) ws rest hws
